import Mathlib

/-!
Shallow embedding of the gcache LRU cache (`lru.go`).

Modelling conventions:
- Keys and values are type parameters `K`, `V` with decidable equality on `K`
  (Go uses `interface{}` map keys).
- `time.Time` and `time.Duration` are both embedded as `Int`;
  `expiration.Before(now)` becomes `deadline < now`.
- The Go cache keeps a key map `items` and a doubly linked `evictList` in
  sync; the embedding keeps the single list `evictList` (head = front =
  most-recently-used, last = back = least-recently-used) and derives the
  map by key lookup.  Operations preserve key uniqueness, so the length of
  the list equals the size of the key map.
- Each place the Go code reads `c.clock.Now()` (the injected clock) becomes
  an explicit `now : Int` argument, and each place it reads `time.Now()`
  (the wall clock, in `Has`/`Keys`/`GetALL`/`BatchGet`/`Len`) becomes an
  explicit `wallNow : Int` argument.
- The serialize/deserialize hooks are embedded as optional functions
  returning `Except GErr V`; stats counters and the added/evicted
  callbacks have no effect on the store state and are omitted.
- The loader (`loadGroup`) is not part of `src/`; the `Get`-family
  operations are embedded for a cache with no loader configured
  (`loaderExpireFunc == nil`), where `getWithLoader` returns
  `KeyNotFoundError` and `BatchGet` simply omits missing keys.
-/

namespace Gcache

set_option linter.unusedSectionVars false

/-- Error values of the cache (`KeyNotFoundError` etc.); hook failures are
embedded as `hookError` with an arbitrary code. -/
inductive GErr where
  | KeyNotFoundError
  | KeyNotSetWithExpireError
  | KeyBatchSetOverCacheSize
  | hookError (code : Nat)
  deriving DecidableEq, Repr

/-- An `lruItem`: key, value and optional absolute expiration deadline
(`expiration *time.Time`).  The Go fields `clock` and `element` are
modelling artefacts (the clock is passed explicitly, the list node is the
item's position in `evictList`). -/
structure Entry (K V : Type) where
  key : K
  value : V
  expiration : Option Int
  deriving DecidableEq, Repr

/-- The `LRUCache` state: capacity `size`, optional default TTL
`expiration` (`c.expiration *time.Duration`), the optional
serialize/deserialize hooks, and the recency list (head = front = MRU). -/
structure LRUCache (K V : Type) where
  size : Nat
  expiration : Option Int
  serializeFunc : Option (K → V → Except GErr V)
  deserializeFunc : Option (K → V → Except GErr V)
  evictList : List (Entry K V)

variable {K V : Type} [DecidableEq K]

/-- `c.items[key]` lookup: the first (and, by key uniqueness, only) entry
with the given key. -/
def lookupItem : List (Entry K V) → K → Option (Entry K V)
  | [], _ => none
  | it :: rest, k => if it.key = k then some it else lookupItem rest k

/-- `removeElement`: delete the entry with the given key from the list
(Go removes the unique list node and the map binding). -/
def removeKey : List (Entry K V) → K → List (Entry K V)
  | [], _ => []
  | it :: rest, k => if it.key = k then rest else it :: removeKey rest k

/-- `evict(count)`: remove the back (least-recently-used) element `count`
times, stopping early when the list is empty. -/
def evict : List (Entry K V) → Nat → List (Entry K V)
  | l, 0 => l
  | l, n + 1 =>
    match l with
    | [] => l
    | _ :: _ => evict l.dropLast n

/-- `lruItem.IsExpired`: false when no deadline, else `deadline.Before(now)`
(strict).  The caller supplies `now` from whichever clock the Go call site
reads. -/
def IsExpired (it : Entry K V) (now : Int) : Bool :=
  match it.expiration with
  | none => false
  | some d => decide (d < now)

/-- `lruItem.GetExpirationDuration`: `(deadline - now, true)` when a
deadline is set, `(none, false)` otherwise. -/
def GetExpirationDuration (it : Entry K V) (now : Int) : Option Int × Bool :=
  match it.expiration with
  | none => (none, false)
  | some d => (some (d - now), true)

/-- The serialize hook step at the top of `set`. -/
def serialize (c : LRUCache K V) (k : K) (v : V) : Except GErr V :=
  match c.serializeFunc with
  | none => .ok v
  | some f => f k v

/-- Overwrite the expiration of the front (most-recently-used) entry; in Go
this is the `item.expiration = &t` write through the pointer returned by
`set`, which always points at the front element. -/
def withFrontExpiration : List (Entry K V) → Int → List (Entry K V)
  | [], _ => []
  | it :: rest, t => { it with expiration := some t } :: rest

/-- The tail of `set`: when the cache-wide default TTL `exp` is configured,
stamp `now + exp` on the just-touched front item; otherwise leave the
item's expiration as it is. -/
def applyDefaultExp (exp : Option Int) (l : List (Entry K V)) (now : Int) :
    List (Entry K V) :=
  match exp with
  | none => l
  | some d => withFrontExpiration l (now + d)

/-- `(c *LRUCache) set(key, value)`: serialize hook first (abort on error),
then either update the existing item's value and move it to the front, or
— after evicting one entry when `evictList.Len() >= size` — push a fresh
item (no deadline) to the front; finally apply the default TTL if
configured. -/
def set (c : LRUCache K V) (k : K) (v : V) (now : Int) :
    Except GErr (LRUCache K V) :=
  match serialize c k v with
  | .error e => .error e
  | .ok value =>
    let list1 :=
      match lookupItem c.evictList k with
      | some it => { it with value := value } :: removeKey c.evictList k
      | none =>
        let list0 :=
          if c.evictList.length ≥ c.size then evict c.evictList 1
          else c.evictList
        { key := k, value := value, expiration := none } :: list0
    .ok { c with evictList := applyDefaultExp c.expiration list1 now }

/-- Public `Set`: pair of returned error and post-state. -/
def Set (c : LRUCache K V) (k : K) (v : V) (now : Int) :
    Option GErr × LRUCache K V :=
  match set c k v now with
  | .error e => (some e, c)
  | .ok c' => (none, c')

/-- Public `SetWithExpire`: run `set`, then stamp `now' + ttl` on the
returned item (the front element).  `now` and `now'` are the two
successive readings of the injected clock. -/
def SetWithExpire (c : LRUCache K V) (k : K) (v : V) (ttl : Int)
    (now now' : Int) : Option GErr × LRUCache K V :=
  match set c k v now with
  | .error e => (some e, c)
  | .ok c' =>
    (none, { c' with evictList := withFrontExpiration c'.evictList (now' + ttl) })

/-- A `BatchSetReq`: key, value, optional per-request TTL duration. -/
structure BatchSetReq (K V : Type) where
  key : K
  value : V
  expiration : Option Int
  deriving DecidableEq, Repr

/-- One iteration of the `BatchSet` loop: `set`, then stamp the
per-request TTL (if any) on the returned front item. -/
def setWithReqExpire (c : LRUCache K V) (r : BatchSetReq K V) (now : Int) :
    Except GErr (LRUCache K V) :=
  match set c r.key r.value now with
  | .error e => .error e
  | .ok c' =>
    match r.expiration with
    | none => .ok c'
    | some d =>
      .ok { c' with evictList := withFrontExpiration c'.evictList (now + d) }

/-- The `BatchSet` request loop: apply requests in order, returning the
first error together with the state reached so far (no rollback). -/
def batchSetLoop (now : Int) :
    List (BatchSetReq K V) → LRUCache K V → Option GErr × LRUCache K V
  | [], c => (none, c)
  | r :: rs, c =>
    match setWithReqExpire c r now with
    | .error e => (some e, c)
    | .ok c' => batchSetLoop now rs c'

/-- Public `BatchSet`: reject the whole batch (no mutation) when
`len(reqs) > c.size`, else run the loop. -/
def BatchSet (c : LRUCache K V) (reqs : List (BatchSetReq K V)) (now : Int) :
    Option GErr × LRUCache K V :=
  if reqs.length > c.size then (some .KeyBatchSetOverCacheSize, c)
  else batchSetLoop now reqs c

/-- `getValue`: on a hit that is not expired (checked against the injected
clock), move the item to the front and return its value; on an expired
hit, remove the entry and report `KeyNotFoundError`; on a miss, report
`KeyNotFoundError`. -/
def getValue (c : LRUCache K V) (k : K) (now : Int) :
    Except GErr V × LRUCache K V :=
  match lookupItem c.evictList k with
  | some it =>
    if IsExpired it now then
      (.error .KeyNotFoundError, { c with evictList := removeKey c.evictList k })
    else
      (.ok it.value, { c with evictList := it :: removeKey c.evictList k })
  | none => (.error .KeyNotFoundError, c)

/-- `get`: `getValue`, then the deserialize hook on the returned value.
The recency move performed by `getValue` happens before the hook runs. -/
def get (c : LRUCache K V) (k : K) (now : Int) :
    Except GErr V × LRUCache K V :=
  match getValue c k now with
  | (.error e, c') => (.error e, c')
  | (.ok v, c') =>
    match c.deserializeFunc with
    | none => (.ok v, c')
    | some f => (f k v, c')

/-- `has(key, now)`: present and not expired at `now`; no mutation. -/
def has (c : LRUCache K V) (k : K) (now : Int) : Bool :=
  match lookupItem c.evictList k with
  | none => false
  | some it => !IsExpired it now

/-- Public `Has`: reads the wall clock (`time.Now()`), not the injected
clock, and never mutates the store. -/
def Has (c : LRUCache K V) (k : K) (wallNow : Int) : Bool :=
  has c k wallNow

/-- Public `GetKeyTTL`: for a present key, the remaining duration
`deadline - now` against the injected clock when a deadline is set
(no expiry recheck, no removal), `KeyNotSetWithExpireError` when not;
`KeyNotFoundError` for an absent key. -/
def GetKeyTTL (c : LRUCache K V) (k : K) (now : Int) :
    Except GErr (Option Int) :=
  match lookupItem c.evictList k with
  | some it =>
    match GetExpirationDuration it now with
    | (duration, true) => .ok duration
    | (_, false) => .error .KeyNotSetWithExpireError
  | none => .error .KeyNotFoundError

/-- Public `Keys`: all keys, filtered by expiration against the wall clock
when `checkExpired` is set; never mutates. -/
def Keys (c : LRUCache K V) (checkExpired : Bool) (wallNow : Int) : List K :=
  (c.evictList.map (·.key)).filter (fun k => !checkExpired || has c k wallNow)

/-- Public `GetALL`: all key-value pairs, filtered by expiration against
the wall clock when `checkExpired` is set; never mutates. -/
def GetALL (c : LRUCache K V) (checkExpired : Bool) (wallNow : Int) :
    List (K × V) :=
  c.evictList.filterMap fun it =>
    if !checkExpired || !IsExpired it wallNow then some (it.key, it.value)
    else none

/-- Public `BatchGet` for a cache with no loader: present keys are
returned (subject to the wall-clock expiration filter); absent keys are
omitted (`getWithLoader` returns `KeyNotFoundError` when no loader is
configured). -/
def BatchGet (c : LRUCache K V) (checkExpired : Bool) (ks : List K)
    (wallNow : Int) : List (K × V) :=
  ks.filterMap fun k =>
    match lookupItem c.evictList k with
    | some it =>
      if !checkExpired || !IsExpired it wallNow then some (k, it.value)
      else none
    | none => none

/-- Public `Len`: raw entry count, or the count of not-expired entries
against the wall clock when `checkExpired` is set. -/
def Len (c : LRUCache K V) (checkExpired : Bool) (wallNow : Int) : Nat :=
  if !checkExpired then c.evictList.length
  else ((c.evictList.map (·.key)).filter (fun k => has c k wallNow)).length

/-- `newLRUCache` / `init`: empty store with the given configuration. -/
def initCache (size : Nat) (exp : Option Int)
    (ser deser : Option (K → V → Except GErr V)) : LRUCache K V :=
  { size := size, expiration := exp, serializeFunc := ser,
    deserializeFunc := deser, evictList := [] }

/-- A public mutating operation of the `Set` family, with the clock
readings it performs. -/
inductive Op (K V : Type) where
  | set (k : K) (v : V) (now : Int)
  | setWithExpire (k : K) (v : V) (ttl : Int) (now now' : Int)
  | batchSet (reqs : List (BatchSetReq K V)) (now : Int)

/-- Run one public operation, keeping the post-state. -/
def applyOp (c : LRUCache K V) : Op K V → LRUCache K V
  | .set k v now => (Set c k v now).2
  | .setWithExpire k v ttl now now' => (SetWithExpire c k v ttl now now').2
  | .batchSet reqs now => (BatchSet c reqs now).2

/-! ### Helper lemmas about the list operations -/

theorem lookupItem_some_key {l : List (Entry K V)} {k : K} {it : Entry K V}
    (h : lookupItem l k = some it) : it.key = k ∧ it ∈ l := by
  induction l with
  | nil => simp [lookupItem] at h
  | cons a rest ih =>
    by_cases hk : a.key = k
    · simp [lookupItem, hk] at h
      subst h
      exact ⟨hk, List.mem_cons_self a rest⟩
    · simp [lookupItem, hk] at h
      rcases ih h with ⟨h1, h2⟩
      exact ⟨h1, List.mem_cons_of_mem a h2⟩

theorem lookupItem_none_iff {l : List (Entry K V)} {k : K} :
    lookupItem l k = none ↔ k ∉ l.map (·.key) := by
  induction l with
  | nil => simp [lookupItem]
  | cons a rest ih =>
    by_cases hk : a.key = k
    · simp [lookupItem, hk]
    · rw [lookupItem, if_neg hk]
      simp only [List.map_cons, List.mem_cons]
      constructor
      · rintro h (h1 | h2)
        · exact hk h1.symm
        · exact ih.mp h h2
      · intro h
        exact ih.mpr fun h2 => h (Or.inr h2)

theorem length_removeKey_of_lookup {l : List (Entry K V)} {k : K}
    {it : Entry K V} (h : lookupItem l k = some it) :
    (removeKey l k).length + 1 = l.length := by
  induction l with
  | nil => simp [lookupItem] at h
  | cons a rest ih =>
    by_cases hk : a.key = k
    · simp [removeKey, hk]
    · rw [lookupItem, if_neg hk] at h
      simp [removeKey, hk, ih h]

theorem mem_keys_removeKey {l : List (Entry K V)} {k x : K}
    (h : x ∈ (removeKey l k).map (·.key)) : x ∈ l.map (·.key) := by
  induction l with
  | nil => simp [removeKey] at h
  | cons a rest ih =>
    by_cases hk : a.key = k
    · rw [removeKey, if_pos hk] at h
      simp only [List.map_cons, List.mem_cons]
      exact Or.inr h
    · rw [removeKey, if_neg hk] at h
      simp only [List.map_cons, List.mem_cons] at h ⊢
      rcases h with h | h
      · exact Or.inl h
      · exact Or.inr (ih h)

theorem nodup_keys_removeKey {l : List (Entry K V)} {k : K}
    (h : (l.map (·.key)).Nodup) : ((removeKey l k).map (·.key)).Nodup := by
  induction l with
  | nil => simp [removeKey]
  | cons a rest ih =>
    rw [List.map_cons, List.nodup_cons] at h
    by_cases hk : a.key = k
    · rw [removeKey, if_pos hk]
      exact h.2
    · rw [removeKey, if_neg hk, List.map_cons, List.nodup_cons]
      exact ⟨fun hmem => h.1 (mem_keys_removeKey hmem), ih h.2⟩

theorem not_mem_keys_removeKey {l : List (Entry K V)} {k : K}
    (h : (l.map (·.key)).Nodup) : k ∉ (removeKey l k).map (·.key) := by
  induction l with
  | nil => simp [removeKey]
  | cons a rest ih =>
    rw [List.map_cons, List.nodup_cons] at h
    by_cases hk : a.key = k
    · rw [removeKey, if_pos hk]
      rw [hk] at h
      exact h.1
    · rw [removeKey, if_neg hk, List.map_cons, List.mem_cons]
      rintro (h1 | h2)
      · exact hk h1.symm
      · exact ih h.2 h2

theorem evict_one_of_ne_nil {l : List (Entry K V)} (h : l ≠ []) :
    evict l 1 = l.dropLast := by
  match l with
  | [] => exact absurd rfl h
  | a :: rest => simp [evict]

theorem length_withFrontExpiration (l : List (Entry K V)) (t : Int) :
    (withFrontExpiration l t).length = l.length := by
  match l with
  | [] => rfl
  | a :: rest => rfl

theorem keys_withFrontExpiration (l : List (Entry K V)) (t : Int) :
    (withFrontExpiration l t).map (·.key) = l.map (·.key) := by
  match l with
  | [] => rfl
  | a :: rest => rfl

theorem length_applyDefaultExp (exp : Option Int) (l : List (Entry K V))
    (now : Int) : (applyDefaultExp exp l now).length = l.length := by
  match exp with
  | none => rfl
  | some d => exact length_withFrontExpiration l (now + d)

theorem keys_applyDefaultExp (exp : Option Int) (l : List (Entry K V))
    (now : Int) :
    (applyDefaultExp exp l now).map (·.key) = l.map (·.key) := by
  match exp with
  | none => rfl
  | some d => exact keys_withFrontExpiration l (now + d)

/-! ### Shape equations for `set` -/

theorem set_serialize_error {c : LRUCache K V} {k : K} {v : V} {now : Int}
    {e : GErr} (hser : serialize c k v = .error e) :
    set c k v now = .error e := by
  unfold set
  rw [hser]

theorem set_of_lookup_some {c : LRUCache K V} {k : K} {v v' : V} {now : Int}
    {it : Entry K V} (hser : serialize c k v = .ok v')
    (hfind : lookupItem c.evictList k = some it) :
    set c k v now = .ok { c with
      evictList := applyDefaultExp c.expiration
        ({ it with value := v' } :: removeKey c.evictList k) now } := by
  unfold set
  rw [hser, hfind]

theorem set_of_lookup_none {c : LRUCache K V} {k : K} {v v' : V} {now : Int}
    (hser : serialize c k v = .ok v')
    (hfind : lookupItem c.evictList k = none) :
    set c k v now = .ok { c with
      evictList := applyDefaultExp c.expiration
        ({ key := k, value := v', expiration := none } ::
          (if c.evictList.length ≥ c.size then evict c.evictList 1
           else c.evictList)) now } := by
  unfold set
  rw [hser, hfind]

theorem nodup_keys_dropLast {l : List (Entry K V)}
    (h : (l.map (·.key)).Nodup) : (l.dropLast.map (·.key)).Nodup :=
  ((l.dropLast_sublist.map (·.key)).nodup h)

theorem mem_keys_dropLast {l : List (Entry K V)} {x : K}
    (h : x ∈ l.dropLast.map (·.key)) : x ∈ l.map (·.key) :=
  (l.dropLast_sublist.map (·.key)).subset h

theorem withFrontExpiration_cons (x : Entry K V) (rest : List (Entry K V))
    (t : Int) :
    withFrontExpiration (x :: rest) t =
      { x with expiration := some t } :: rest := rfl

theorem applyDefaultExp_cons (exp : Option Int) (x : Entry K V)
    (rest : List (Entry K V)) (now : Int) :
    applyDefaultExp exp (x :: rest) now =
      (match exp with
       | none => x
       | some d => { x with expiration := some (now + d) }) :: rest := by
  cases exp <;> rfl

/-! ### The capacity invariant and its preservation -/

/-- The store invariant: entry count within capacity, and keys unique
(so the recency list and the key map describe the same set of entries). -/
def CapInv (c : LRUCache K V) : Prop :=
  c.evictList.length ≤ c.size ∧ (c.evictList.map (·.key)).Nodup

theorem set_ok_CapInv {c c' : LRUCache K V} {k : K} {v : V} {now : Int}
    (h : set c k v now = .ok c') (hpos : 1 ≤ c.size) (hinv : CapInv c) :
    CapInv c' ∧ c'.size = c.size := by
  obtain ⟨hlen, hnd⟩ := hinv
  cases hser : serialize c k v with
  | error e =>
    rw [set_serialize_error hser] at h
    exact absurd h (by simp)
  | ok v' =>
    cases hfind : lookupItem c.evictList k with
    | some it =>
      rw [set_of_lookup_some hser hfind] at h
      simp only [Except.ok.injEq] at h
      subst h
      have hrem := length_removeKey_of_lookup hfind
      have hkey := (lookupItem_some_key hfind).1
      refine ⟨⟨?_, ?_⟩, rfl⟩
      · simp only [length_applyDefaultExp, List.length_cons]
        omega
      · rw [keys_applyDefaultExp, List.map_cons, List.nodup_cons]
        refine ⟨?_, nodup_keys_removeKey hnd⟩
        show ({ it with value := v' } : Entry K V).key ∉ _
        simpa [hkey] using not_mem_keys_removeKey (k := k) hnd
    | none =>
      rw [set_of_lookup_none hser hfind] at h
      simp only [Except.ok.injEq] at h
      subst h
      have hnotmem := lookupItem_none_iff.mp hfind
      by_cases hcap : c.evictList.length ≥ c.size
      · have hne : c.evictList ≠ [] := by
          intro hnil
          rw [hnil] at hcap
          simp at hcap
          omega
        refine ⟨⟨?_, ?_⟩, rfl⟩
        · simp only [length_applyDefaultExp, List.length_cons, if_pos hcap,
            evict_one_of_ne_nil hne, List.length_dropLast]
          omega
        · rw [keys_applyDefaultExp, if_pos hcap, evict_one_of_ne_nil hne,
            List.map_cons, List.nodup_cons]
          exact ⟨fun hmem => hnotmem (mem_keys_dropLast hmem),
            nodup_keys_dropLast hnd⟩
      · refine ⟨⟨?_, ?_⟩, rfl⟩
        · simp only [length_applyDefaultExp, List.length_cons, if_neg hcap]
          omega
        · rw [keys_applyDefaultExp, if_neg hcap, List.map_cons,
            List.nodup_cons]
          exact ⟨hnotmem, hnd⟩

theorem CapInv_withFront {c : LRUCache K V} (t : Int) (hinv : CapInv c) :
    CapInv { c with evictList := withFrontExpiration c.evictList t } := by
  obtain ⟨hlen, hnd⟩ := hinv
  refine ⟨?_, ?_⟩
  · simpa [length_withFrontExpiration] using hlen
  · simpa [keys_withFrontExpiration] using hnd

theorem Set_CapInv (c : LRUCache K V) (k : K) (v : V) (now : Int)
    (hpos : 1 ≤ c.size) (hinv : CapInv c) :
    CapInv (Set c k v now).2 ∧ (Set c k v now).2.size = c.size := by
  unfold Set
  cases h : set c k v now with
  | error e => exact ⟨hinv, rfl⟩
  | ok c' => exact set_ok_CapInv h hpos hinv

theorem SetWithExpire_CapInv (c : LRUCache K V) (k : K) (v : V)
    (ttl now now' : Int) (hpos : 1 ≤ c.size) (hinv : CapInv c) :
    CapInv (SetWithExpire c k v ttl now now').2 ∧
      (SetWithExpire c k v ttl now now').2.size = c.size := by
  unfold SetWithExpire
  cases h : set c k v now with
  | error e => exact ⟨hinv, rfl⟩
  | ok c' =>
    obtain ⟨hinv', hsz⟩ := set_ok_CapInv h hpos hinv
    exact ⟨CapInv_withFront _ hinv', hsz⟩

theorem setWithReqExpire_ok_CapInv {c c' : LRUCache K V}
    {r : BatchSetReq K V} {now : Int}
    (h : setWithReqExpire c r now = .ok c') (hpos : 1 ≤ c.size)
    (hinv : CapInv c) : CapInv c' ∧ c'.size = c.size := by
  unfold setWithReqExpire at h
  cases hset : set c r.key r.value now with
  | error e =>
    rw [hset] at h
    exact absurd h (by simp)
  | ok c₁ =>
    rw [hset] at h
    obtain ⟨hinv₁, hsz₁⟩ := set_ok_CapInv hset hpos hinv
    cases hexp : r.expiration with
    | none =>
      rw [hexp] at h
      simp only [Except.ok.injEq] at h
      subst h
      exact ⟨hinv₁, hsz₁⟩
    | some d =>
      rw [hexp] at h
      simp only [Except.ok.injEq] at h
      subst h
      exact ⟨CapInv_withFront _ hinv₁, hsz₁⟩

theorem batchSetLoop_CapInv (now : Int) :
    ∀ (reqs : List (BatchSetReq K V)) (c : LRUCache K V), 1 ≤ c.size →
      CapInv c → CapInv (batchSetLoop now reqs c).2 ∧
        (batchSetLoop now reqs c).2.size = c.size := by
  intro reqs
  induction reqs with
  | nil => exact fun c _ hinv => ⟨hinv, rfl⟩
  | cons r rs ih =>
    intro c hpos hinv
    unfold batchSetLoop
    cases h : setWithReqExpire c r now with
    | error e => exact ⟨hinv, rfl⟩
    | ok c' =>
      obtain ⟨hinv', hsz⟩ := setWithReqExpire_ok_CapInv h hpos hinv
      obtain ⟨hfin, hfsz⟩ := ih c' (hsz ▸ hpos) hinv'
      exact ⟨hfin, hsz ▸ hfsz⟩

theorem BatchSet_CapInv (c : LRUCache K V) (reqs : List (BatchSetReq K V))
    (now : Int) (hpos : 1 ≤ c.size) (hinv : CapInv c) :
    CapInv (BatchSet c reqs now).2 ∧ (BatchSet c reqs now).2.size = c.size := by
  unfold BatchSet
  by_cases hsz : reqs.length > c.size
  · rw [if_pos hsz]
    exact ⟨hinv, rfl⟩
  · rw [if_neg hsz]
    exact batchSetLoop_CapInv now reqs c hpos hinv

theorem applyOp_CapInv (c : LRUCache K V) (op : Op K V) (hpos : 1 ≤ c.size)
    (hinv : CapInv c) :
    CapInv (applyOp c op) ∧ (applyOp c op).size = c.size := by
  cases op with
  | set k v now => exact Set_CapInv c k v now hpos hinv
  | setWithExpire k v ttl now now' =>
    exact SetWithExpire_CapInv c k v ttl now now' hpos hinv
  | batchSet reqs now => exact BatchSet_CapInv c reqs now hpos hinv

theorem foldl_applyOp_CapInv :
    ∀ (ops : List (Op K V)) (c : LRUCache K V), 1 ≤ c.size → CapInv c →
      CapInv (ops.foldl applyOp c) ∧ (ops.foldl applyOp c).size = c.size := by
  intro ops
  induction ops with
  | nil => exact fun c _ hinv => ⟨hinv, rfl⟩
  | cons op rest ih =>
    intro c hpos hinv
    rw [List.foldl_cons]
    obtain ⟨hinv', hsz⟩ := applyOp_CapInv c op hpos hinv
    obtain ⟨hfin, hfsz⟩ := ih (applyOp c op) (hsz ▸ hpos) hinv'
    exact ⟨hfin, hsz ▸ hfsz⟩

/-! ### Claim theorems -/

/-- Claim C1: for every sequence of public `Set`/`SetWithExpire`/`BatchSet`
operations on an LRU cache built with capacity `s ≥ 1`, the number of live
entries is at most the capacity at the moment each operation returns (the
recency-list length bounds hold of the returned state itself, so eviction
has already happened inside the insert); the keys also stay unique, so the
list length is exactly the size of the key-to-item map. -/
theorem capacity_le_after_ops (s : Nat) (hs : 1 ≤ s) (exp : Option Int)
    (ser deser : Option (K → V → Except GErr V)) (ops : List (Op K V)) :
    (ops.foldl applyOp (initCache s exp ser deser)).evictList.length ≤ s ∧
    ((ops.foldl applyOp (initCache s exp ser deser)).evictList.map
      (·.key)).Nodup := by
  have h := foldl_applyOp_CapInv ops (initCache s exp ser deser)
    (by simpa [initCache] using hs)
    ⟨by simp [initCache, CapInv], by simp [initCache]⟩
  obtain ⟨⟨h1, h2⟩, hsz⟩ := h
  have hs0 : (initCache (K := K) (V := V) s exp ser deser).size = s := rfl
  rw [hs0] at hsz
  exact ⟨h1.trans (le_of_eq hsz), h2⟩

/-- Witness for C1 at capacity 1 with three inserts. -/
theorem capacity_le_after_ops_witness :
    (1 : Nat) ≤ 1 ∧
    ((([Op.set 1 1 0, Op.set 2 2 0, Op.batchSet [⟨3, 3, none⟩] 0] :
        List (Op Nat Nat)).foldl applyOp
        (initCache 1 none none none)).evictList.length ≤ 1 ∧
      ((([Op.set 1 1 0, Op.set 2 2 0, Op.batchSet [⟨3, 3, none⟩] 0] :
        List (Op Nat Nat)).foldl applyOp
        (initCache 1 none none none)).evictList.map (·.key)).Nodup) :=
  ⟨Nat.le_refl 1, capacity_le_after_ops 1 (Nat.le_refl 1) none none none _⟩

/-- Claim C3: `Set` of an existing key replaces the value and moves the
entry to the front without changing the entry count (no eviction); `Set`
of a new key at capacity evicts exactly the back (least-recently-used)
entry — the result list is the new entry consed onto `dropLast` — and
under capacity simply prepends; with no serialize hook a single-key `set`
always succeeds, so it never fails for capacity reasons. -/
theorem set_update_move_evict (c : LRUCache K V) (k : K) (v : V) (now : Int)
    (hser : c.serializeFunc = none) :
    (∀ it, lookupItem c.evictList k = some it →
      set c k v now = .ok { c with
        evictList := applyDefaultExp c.expiration
          ({ it with value := v } :: removeKey c.evictList k) now } ∧
      (applyDefaultExp c.expiration
          ({ it with value := v } :: removeKey c.evictList k) now).length =
        c.evictList.length) ∧
    (lookupItem c.evictList k = none → c.evictList.length = c.size →
      1 ≤ c.size →
      set c k v now = .ok { c with
        evictList := applyDefaultExp c.expiration
          ({ key := k, value := v, expiration := none } ::
            c.evictList.dropLast) now }) ∧
    (lookupItem c.evictList k = none → c.evictList.length < c.size →
      set c k v now = .ok { c with
        evictList := applyDefaultExp c.expiration
          ({ key := k, value := v, expiration := none } ::
            c.evictList) now }) ∧
    (∃ c', set c k v now = .ok c') := by
  have hserialize : serialize c k v = .ok v := by
    unfold serialize
    rw [hser]
  refine ⟨?_, ?_, ?_, ?_⟩
  · intro it hfind
    refine ⟨set_of_lookup_some hserialize hfind, ?_⟩
    have hrem := length_removeKey_of_lookup hfind
    simp only [length_applyDefaultExp, List.length_cons]
    omega
  · intro hfind hlen hpos
    have hcap : c.evictList.length ≥ c.size := le_of_eq hlen.symm
    have hne : c.evictList ≠ [] := by
      intro hnil
      rw [hnil] at hlen
      simp at hlen
      omega
    rw [set_of_lookup_none hserialize hfind, if_pos hcap,
      evict_one_of_ne_nil hne]
  · intro hfind hlt
    have hcap : ¬c.evictList.length ≥ c.size := not_le.mpr hlt
    rw [set_of_lookup_none hserialize hfind, if_neg hcap]
  · cases hfind : lookupItem c.evictList k with
    | some it => exact ⟨_, set_of_lookup_some hserialize hfind⟩
    | none => exact ⟨_, set_of_lookup_none hserialize hfind⟩

/-- A concrete two-entry cache (front = key 1, back = key 2) with no hooks
and no default TTL, at capacity 2; used by concrete witnesses. -/
def cacheNoHooks2 : LRUCache Nat Nat :=
  { size := 2, expiration := none, serializeFunc := none,
    deserializeFunc := none,
    evictList := [⟨1, 10, none⟩, ⟨2, 20, none⟩] }

/-- Witness for C3: a two-entry cache at capacity 2; inserting the fresh
key 9 evicts exactly the back entry. -/
theorem set_update_move_evict_witness :
    cacheNoHooks2.serializeFunc = none ∧
    set cacheNoHooks2 9 90 0 = .ok { cacheNoHooks2 with
      evictList := applyDefaultExp cacheNoHooks2.expiration
        ({ key := 9, value := 90, expiration := none } ::
          cacheNoHooks2.evictList.dropLast) 0 } :=
  ⟨rfl, (set_update_move_evict cacheNoHooks2 9 90 0 rfl).2.1 rfl rfl
    (by decide)⟩

/-- A concrete single-entry cache whose entry (key 1, value 10) carries the
absolute deadline 5; no hooks, no default TTL. -/
def cacheExp5 : LRUCache Nat Nat :=
  { size := 2, expiration := none, serializeFunc := none,
    deserializeFunc := none, evictList := [⟨1, 10, some 5⟩] }

/-- Claim C2: lazy expiration — when an entry's deadline `d` is strictly
before the access time `T`, `getValue` (the value-returning access used by
`Get`) reports `KeyNotFoundError` and removes the entry from the store
(the single list embeds both the key map and the recency list), while
`Has` at the same time `T` returns false; `Has` is a pure observation and
never mutates the store. -/
theorem get_expired_removes_Has_keeps (c : LRUCache K V) (k : K)
    (it : Entry K V) (d T : Int)
    (hfind : lookupItem c.evictList k = some it)
    (hexp : it.expiration = some d) (hlt : d < T)
    (hnd : (c.evictList.map (·.key)).Nodup) :
    getValue c k T =
      (.error GErr.KeyNotFoundError,
        { c with evictList := removeKey c.evictList k }) ∧
    lookupItem (removeKey c.evictList k) k = none ∧
    Has c k T = false := by
  have hexpired : IsExpired it T = true := by
    simp [IsExpired, hexp, hlt]
  refine ⟨?_, ?_, ?_⟩
  · unfold getValue
    rw [hfind]
    simp [hexpired]
  · exact lookupItem_none_iff.mpr (not_mem_keys_removeKey hnd)
  · unfold Has has
    rw [hfind]
    simp [hexpired]

/-- Witness for C2: the deadline-5 entry accessed at time 9. -/
theorem get_expired_removes_Has_keeps_witness :
    lookupItem cacheExp5.evictList 1 = some ⟨1, 10, some 5⟩ ∧
    (Entry.expiration (K := Nat) (V := Nat) ⟨1, 10, some 5⟩ = some 5 ∧
      (5 : Int) < 9 ∧ (cacheExp5.evictList.map (·.key)).Nodup) ∧
    (getValue cacheExp5 1 9 =
      (.error GErr.KeyNotFoundError,
        { cacheExp5 with evictList := removeKey cacheExp5.evictList 1 }) ∧
    lookupItem (removeKey cacheExp5.evictList 1) 1 = none ∧
    Has cacheExp5 1 9 = false) :=
  ⟨rfl, ⟨rfl, by decide, by decide⟩,
    get_expired_removes_Has_keeps cacheExp5 1 ⟨1, 10, some 5⟩ 5 9 rfl rfl
      (by decide) (by decide)⟩

/-- Claim C5: `GetKeyTTL` on a present key with no deadline reports
`KeyNotSetWithExpireError`; with a deadline it returns `deadline - now`
(negative when the deadline has passed, with no expiry recheck); on an
absent key it reports `KeyNotFoundError`.  It is a pure observation: the
store state is not an output of the operation, so nothing is removed. -/
theorem getKeyTTL_cases (c : LRUCache K V) (k : K) (now : Int) :
    (∀ it, lookupItem c.evictList k = some it →
      (it.expiration = none →
        GetKeyTTL c k now = .error GErr.KeyNotSetWithExpireError) ∧
      (∀ d, it.expiration = some d →
        GetKeyTTL c k now = .ok (some (d - now)))) ∧
    (lookupItem c.evictList k = none →
      GetKeyTTL c k now = .error GErr.KeyNotFoundError) := by
  constructor
  · intro it hfind
    constructor
    · intro hnone
      simp [GetKeyTTL, hfind, GetExpirationDuration, hnone]
    · intro d hsome
      simp [GetKeyTTL, hfind, GetExpirationDuration, hsome]
  · intro hfind
    simp [GetKeyTTL, hfind]

/-- Witness for C5: querying the deadline-5 entry at time 9 yields the
negative remaining duration -4 (entry already past deadline, still
reported, not treated as not-found). -/
theorem getKeyTTL_cases_witness :
    lookupItem cacheExp5.evictList 1 = some ⟨1, 10, some 5⟩ ∧
    Entry.expiration (K := Nat) (V := Nat) ⟨1, 10, some 5⟩ = some 5 ∧
    GetKeyTTL cacheExp5 1 9 = .ok (some (-4)) :=
  ⟨rfl, rfl,
    ((getKeyTTL_cases cacheExp5 1 9).1 ⟨1, 10, some 5⟩ rfl).2 5 rfl⟩

theorem batchSetLoop_append {now : Int} :
    ∀ (pre rest : List (BatchSetReq K V)) (c c₁ : LRUCache K V),
      batchSetLoop now pre c = (none, c₁) →
      batchSetLoop now (pre ++ rest) c = batchSetLoop now rest c₁ := by
  intro pre
  induction pre with
  | nil =>
    intro rest c c₁ h
    unfold batchSetLoop at h
    simp at h
    rw [h, List.nil_append]
  | cons r rs ih =>
    intro rest c c₁ h
    cases hstep : setWithReqExpire c r now with
    | error e =>
      simp only [batchSetLoop, hstep] at h
      exact absurd h (by simp)
    | ok c' =>
      simp only [batchSetLoop, hstep] at h
      rw [List.cons_append]
      simp only [batchSetLoop, hstep]
      exact ih rest c' c₁ h

/-- Claim C7: when the batch fits the capacity and an individual set fails
on request `r` after the prefix `pre` applied cleanly, `BatchSet` returns
that error immediately together with the state reached after `pre` — the
already-applied requests are kept, no rollback happens. -/
theorem batchSet_partial_failure (c c₁ : LRUCache K V)
    (pre post : List (BatchSetReq K V)) (r : BatchSetReq K V) (now : Int)
    (e : GErr)
    (hsize : (pre ++ r :: post).length ≤ c.size)
    (hpre : batchSetLoop now pre c = (none, c₁))
    (hfail : setWithReqExpire c₁ r now = .error e) :
    BatchSet c (pre ++ r :: post) now = (some e, c₁) := by
  unfold BatchSet
  rw [if_neg (not_lt.mpr hsize)]
  rw [batchSetLoop_append pre (r :: post) c c₁ hpre]
  unfold batchSetLoop
  rw [hfail]

/-- A serialize hook that fails (with `hookError 7`) exactly on key 2. -/
def failOn2 : Nat → Nat → Except GErr Nat :=
  fun k v => if k = 2 then .error (GErr.hookError 7) else .ok v

/-- An empty capacity-5 cache whose serialize hook is `failOn2`. -/
def cacheSerFail : LRUCache Nat Nat := initCache 5 none (some failOn2) none

/-- Witness for C7: the batch [key 1, key 2, key 3] fails on key 2; the
result keeps key 1 in the store and reports `hookError 7`. -/
theorem batchSet_partial_failure_witness :
    (([⟨1, 11, none⟩] ++ ⟨2, 22, none⟩ :: [⟨3, 33, none⟩] :
        List (BatchSetReq Nat Nat)).length ≤ cacheSerFail.size) ∧
    batchSetLoop 0 [⟨1, 11, none⟩] cacheSerFail =
      (none, { cacheSerFail with evictList := [⟨1, 11, none⟩] }) ∧
    setWithReqExpire { cacheSerFail with evictList := [⟨1, 11, none⟩] }
      ⟨2, 22, none⟩ 0 = .error (GErr.hookError 7) ∧
    BatchSet cacheSerFail
        ([⟨1, 11, none⟩] ++ ⟨2, 22, none⟩ :: [⟨3, 33, none⟩]) 0 =
      (some (GErr.hookError 7),
        { cacheSerFail with evictList := [⟨1, 11, none⟩] }) :=
  ⟨by decide, rfl, rfl,
    batchSet_partial_failure cacheSerFail
      { cacheSerFail with evictList := [⟨1, 11, none⟩] }
      [⟨1, 11, none⟩] [⟨3, 33, none⟩] ⟨2, 22, none⟩ 0 (GErr.hookError 7)
      (by decide) rfl rfl⟩

/-- Claim C6: a batch strictly larger than the capacity is rejected whole
with `KeyBatchSetOverCacheSize`, and the returned state is the input state
itself — key map, recency list, values and expirations untouched. -/
theorem batchSet_rejects_oversized (c : LRUCache K V)
    (reqs : List (BatchSetReq K V)) (now : Int)
    (h : reqs.length > c.size) :
    BatchSet c reqs now = (some GErr.KeyBatchSetOverCacheSize, c) := by
  unfold BatchSet
  rw [if_pos h]

/-- Witness for C6: two requests against capacity 1. -/
theorem batchSet_rejects_oversized_witness :
    (([⟨1, 1, none⟩, ⟨2, 2, none⟩] :
        List (BatchSetReq Nat Nat)).length >
      (initCache 1 none none none : LRUCache Nat Nat).size) ∧
    BatchSet (initCache 1 none none none : LRUCache Nat Nat)
        [⟨1, 1, none⟩, ⟨2, 2, none⟩] 0 =
      (some GErr.KeyBatchSetOverCacheSize, initCache 1 none none none) :=
  ⟨by decide, batchSet_rejects_oversized _ _ 0 (by decide)⟩

/-- Counterexample to C4 as stated: in a cache with no default TTL, a plain
`Set` on a key whose entry got a deadline from an earlier `SetWithExpire`
keeps that old deadline (deadline 100 survives), instead of leaving the
entry with no expiration deadline as the claim asserts. -/
theorem set_keeps_stale_deadline :
    lookupItem ((Set ((SetWithExpire
          (initCache 2 none none none : LRUCache Nat Nat)
          1 10 100 0 0).2) 1 20 0).2).evictList 1 =
        some ⟨1, 20, some 100⟩ ∧
    (Entry.expiration (K := Nat) (V := Nat) ⟨1, 20, some 100⟩).isSome =
      true :=
  ⟨rfl, rfl⟩

theorem setWithReqExpire_mk (c : LRUCache K V) (k : K) (v : V)
    (oexp : Option Int) (now : Int) :
    setWithReqExpire c ⟨k, v, oexp⟩ now =
      match set c k v now with
      | .error e => .error e
      | .ok c' =>
        match oexp with
        | none => .ok c'
        | some d =>
          .ok { c' with
            evictList := withFrontExpiration c'.evictList (now + d) } := rfl

/-- Claim C4 (amended): the deadline written by a `Set`-family operation —
`Set`, `SetWithExpire`, or a `BatchSet` request (one `setWithReqExpire`
iteration of the `BatchSet` loop) — is: the per-call override (`now' +
ttl` for `SetWithExpire`, `now + ttl` for a request carrying a TTL) if
one is given, else the cache default (`now + d`) if configured, else —
for a key not yet present — no deadline; but a plain no-override write
(`Set`, or a `BatchSet` request without a TTL, which produces exactly the
`Set` post-state) on an existing key in a cache with no default TTL
leaves the entry's previous deadline unchanged, so a prior
`SetWithExpire` deadline persists. -/
theorem deadline_derivation (c : LRUCache K V) (k : K) (v : V)
    (ttl d now now' : Int) (hser : c.serializeFunc = none) :
    ((SetWithExpire c k v ttl now now').2.evictList.head? =
      some ⟨k, v, some (now' + ttl)⟩) ∧
    (c.expiration = some d →
      (Set c k v now).2.evictList.head? = some ⟨k, v, some (now + d)⟩) ∧
    (c.expiration = none → lookupItem c.evictList k = none →
      (Set c k v now).2.evictList.head? = some ⟨k, v, none⟩) ∧
    (∀ it, c.expiration = none → lookupItem c.evictList k = some it →
      (Set c k v now).2.evictList.head? = some ⟨k, v, it.expiration⟩) ∧
    (∃ c', setWithReqExpire c ⟨k, v, some ttl⟩ now = .ok c' ∧
      c'.evictList.head? = some ⟨k, v, some (now + ttl)⟩) ∧
    (setWithReqExpire c ⟨k, v, none⟩ now = .ok (Set c k v now).2) := by
  have hserialize : serialize c k v = .ok v := by
    unfold serialize
    rw [hser]
  refine ⟨?_, ?_, ?_, ?_, ?_, ?_⟩
  · unfold SetWithExpire
    cases hfind : lookupItem c.evictList k with
    | some it =>
      have hkey := (lookupItem_some_key hfind).1
      rw [set_of_lookup_some hserialize hfind]
      cases hexp : c.expiration <;>
        simp [applyDefaultExp, withFrontExpiration, hkey]
    | none =>
      rw [set_of_lookup_none hserialize hfind]
      cases hexp : c.expiration <;>
        simp [applyDefaultExp, withFrontExpiration]
  · intro hexp
    unfold Set
    cases hfind : lookupItem c.evictList k with
    | some it =>
      have hkey := (lookupItem_some_key hfind).1
      rw [set_of_lookup_some hserialize hfind]
      simp [applyDefaultExp, hexp, withFrontExpiration, hkey]
    | none =>
      rw [set_of_lookup_none hserialize hfind]
      simp [applyDefaultExp, hexp, withFrontExpiration]
  · intro hexp hfind
    unfold Set
    rw [set_of_lookup_none hserialize hfind]
    simp [applyDefaultExp, hexp]
  · intro it hexp hfind
    have hkey := (lookupItem_some_key hfind).1
    unfold Set
    rw [set_of_lookup_some hserialize hfind]
    simp [applyDefaultExp, hexp, hkey]
  · rw [setWithReqExpire_mk]
    cases hfind : lookupItem c.evictList k with
    | some it =>
      have hkey := (lookupItem_some_key hfind).1
      rw [set_of_lookup_some hserialize hfind]
      refine ⟨_, rfl, ?_⟩
      cases hexp : c.expiration <;>
        simp [applyDefaultExp, withFrontExpiration, hkey]
    | none =>
      rw [set_of_lookup_none hserialize hfind]
      refine ⟨_, rfl, ?_⟩
      cases hexp : c.expiration <;>
        simp [applyDefaultExp, withFrontExpiration]
  · rw [setWithReqExpire_mk]
    unfold Set
    cases hfind : lookupItem c.evictList k with
    | some it => rw [set_of_lookup_some hserialize hfind]
    | none => rw [set_of_lookup_none hserialize hfind]

/-- Witness for the amended C4, covering the corrected case and the
`BatchSet` write: a plain `Set` on the existing deadline-5 entry of a
no-default-TTL cache keeps the old deadline 5, `SetWithExpire` stamps
the override deadline, a `BatchSet` request without a TTL produces the
`Set` post-state, and a whole `BatchSet` carrying a per-request TTL
stamps it on the written entry. -/
theorem deadline_derivation_witness :
    cacheExp5.serializeFunc = none ∧
    cacheExp5.expiration = none ∧
    lookupItem cacheExp5.evictList 1 = some ⟨1, 10, some 5⟩ ∧
    (SetWithExpire cacheExp5 1 10 100 0 0).2.evictList.head? =
      some ⟨1, 10, some 100⟩ ∧
    (Set cacheExp5 1 77 0).2.evictList.head? = some ⟨1, 77, some 5⟩ ∧
    setWithReqExpire cacheExp5 ⟨1, 10, some 100⟩ 0 =
      .ok { cacheExp5 with evictList := [⟨1, 10, some 100⟩] } ∧
    setWithReqExpire cacheExp5 ⟨1, 77, none⟩ 0 =
      .ok (Set cacheExp5 1 77 0).2 ∧
    BatchSet cacheExp5 [⟨7, 70, some 100⟩] 0 =
      (none, { cacheExp5 with
        evictList := [⟨7, 70, some 100⟩, ⟨1, 10, some 5⟩] }) :=
  ⟨rfl, rfl, rfl,
    (deadline_derivation cacheExp5 1 10 100 0 0 0 rfl).1,
    (deadline_derivation cacheExp5 1 77 0 0 0 0 rfl).2.2.2.1
      ⟨1, 10, some 5⟩ rfl rfl,
    rfl,
    (deadline_derivation cacheExp5 1 77 0 0 0 0 rfl).2.2.2.2.2,
    rfl⟩

/-- A deserialize hook that always fails with `hookError 3`. -/
def deserFail : Nat → Nat → Except GErr Nat :=
  fun _ _ => .error (GErr.hookError 3)

/-- A two-entry cache (front = key 2, back = key 1) whose deserialize hook
is `deserFail`. -/
def cacheDeserFail : LRUCache Nat Nat :=
  { size := 3, expiration := none, serializeFunc := none,
    deserializeFunc := some deserFail,
    evictList := [⟨2, 20, none⟩, ⟨1, 10, none⟩] }

/-- Counterexample to C8 as stated: a `Get` whose deserialize hook fails
returns that error, but the recency order has already changed — key 1 was
moved from the back to the front before the hook ran — so the entry's
position is not the same as before the failing operation. -/
theorem get_deserialize_failure_moves_entry :
    get cacheDeserFail 1 0 =
      (.error (GErr.hookError 3),
        { cacheDeserFail with
          evictList := [⟨1, 10, none⟩, ⟨2, 20, none⟩] }) ∧
    ([⟨1, 10, none⟩, ⟨2, 20, none⟩] : List (Entry Nat Nat)) ≠
      cacheDeserFail.evictList :=
  ⟨rfl, by decide⟩

/-- Claim C8 (amended): a `Set` whose serialize hook fails returns that
error with the store fully unchanged; a `Get` whose deserialize hook fails
on a present, unexpired entry returns that error with the entry's value,
expiration and membership unchanged, but with the entry already moved to
the most-recently-used (front) position. -/
theorem transform_failure_effects (c : LRUCache K V) (k : K) (v : V)
    (now : Int) (e : GErr) (f : K → V → Except GErr V) :
    (c.serializeFunc = some f → f k v = .error e →
      Set c k v now = (some e, c)) ∧
    (∀ it, c.deserializeFunc = some f → lookupItem c.evictList k = some it →
      IsExpired it now = false → f k it.value = .error e →
      get c k now =
        (.error e, { c with evictList := it :: removeKey c.evictList k })) := by
  constructor
  · intro hser hfail
    have hserialize : serialize c k v = .error e := by
      unfold serialize
      rw [hser]
      exact hfail
    unfold Set
    rw [set_serialize_error hserialize]
  · intro it hdeser hfind hlive hfail
    unfold get getValue
    rw [hfind]
    simp [hlive, hdeser, hfail]

/-- Witness for the amended C8: the serialize part on `cacheSerFail` (no
mutation at all) and the deserialize part on `cacheDeserFail` (error
returned, entry kept but moved to the front). -/
theorem transform_failure_effects_witness :
    (cacheSerFail.serializeFunc = some failOn2 ∧
      failOn2 2 22 = .error (GErr.hookError 7) ∧
      Set cacheSerFail 2 22 0 = (some (GErr.hookError 7), cacheSerFail)) ∧
    (cacheDeserFail.deserializeFunc = some deserFail ∧
      lookupItem cacheDeserFail.evictList 1 = some ⟨1, 10, none⟩ ∧
      IsExpired (⟨1, 10, none⟩ : Entry Nat Nat) 0 = false ∧
      deserFail 1 10 = .error (GErr.hookError 3) ∧
      get cacheDeserFail 1 0 =
        (.error (GErr.hookError 3),
          { cacheDeserFail with
            evictList := ⟨1, 10, none⟩ ::
              removeKey cacheDeserFail.evictList 1 })) :=
  ⟨⟨rfl, rfl,
    (transform_failure_effects cacheSerFail 2 22 0 (GErr.hookError 7)
      failOn2).1 rfl rfl⟩,
   ⟨rfl, rfl, rfl, rfl,
    (transform_failure_effects cacheDeserFail 1 10 0 (GErr.hookError 3)
      deserFail).2 ⟨1, 10, none⟩ rfl rfl rfl rfl⟩⟩

/-- Claim C10: the expiration checks of `Has`, `Keys(true)`, `GetALL(true)`,
`Len(true)` and `BatchGet(true)` read the wall clock (`time.Now()` in the
Go code, the `wallNow` argument here), while `set`/`getValue`/`GetKeyTTL`
read the injected clock (`c.clock.Now()`, the `now` argument here).  So
under a simulated injected clock reading 10 while the wall clock reads 3,
the same deadline-5 entry is expired for `getValue` — which removes it and
reports not-found — yet alive for `Has`/`Len`/`GetALL`/`Keys`/`BatchGet`;
with the readings swapped (clock 3, wall 10) the disagreement flips. -/
theorem wall_clock_versus_injected_clock :
    (getValue cacheExp5 1 10 =
      (.error GErr.KeyNotFoundError, { cacheExp5 with evictList := [] }) ∧
     Has cacheExp5 1 3 = true ∧
     Len cacheExp5 true 3 = 1 ∧
     GetALL cacheExp5 true 3 = [(1, 10)] ∧
     Keys cacheExp5 true 3 = [1] ∧
     BatchGet cacheExp5 true [1] 3 = [(1, 10)] ∧
     GetKeyTTL cacheExp5 1 10 = .ok (some (-5))) ∧
    (getValue cacheExp5 1 3 = (.ok 10, cacheExp5) ∧
     Has cacheExp5 1 10 = false ∧
     Len cacheExp5 true 10 = 0 ∧
     GetALL cacheExp5 true 10 = [] ∧
     Keys cacheExp5 true 10 = [] ∧
     BatchGet cacheExp5 true [1] 10 = []) :=
  ⟨⟨rfl, rfl, rfl, rfl, rfl, rfl, rfl⟩, ⟨rfl, rfl, rfl, rfl, rfl, rfl⟩⟩

end Gcache
